import Mathlib

/-!
Shallow embedding of the comment-ingestion and AI-response-to-table pipeline of
`app.py` (a single-file video-comment dashboard), together with proofs about it.

Text is modelled as `List Char`; the Python string operations used by the code
(`str.find` / `in`, `str.replace`, `str.strip`, `str.split`, `re.sub` with the
pattern `<[^<]+?>`) are embedded as recursive functions below.  The remote
comment-listing API and the generative-text API are black boxes, modelled as
explicit inputs.  `pd.read_csv(..., sep='|', on_bad_lines='skip',
engine='python')` is embedded at the level the proofs need: its records come
from the csv.reader scan the python engine delegates to (quote character
`"`, doublequote, delimiter `|`, embedded as the `csvStep` state machine),
followed by blank-record removal, implicit-index widening from the first
data record, and skipping of over-long records, keeping each surviving
record as its raw field list.
-/

namespace App

/-- Text, modelled as a list of characters (one entry per Python character). -/
abbrev Txt := List Char

/-- Whitespace as stripped by Python `str.strip()` (the ASCII whitespace set). -/
def isSpaceChar (c : Char) : Bool :=
  decide (c = ' ') || decide (c = '\n') || decide (c = '\t') || decide (c = '\r')
    || decide (c = '\x0b') || decide (c = '\x0c')

/-- Python `str.strip()`: drop leading and trailing whitespace. -/
def pyStrip (s : Txt) : Txt :=
  ((s.dropWhile isSpaceChar).reverse.dropWhile isSpaceChar).reverse

/-- Whether `pat` is a prefix of `s` (Python `str.startswith`). -/
def startsWith : Txt → Txt → Bool
  | [], _ => true
  | _ :: _, [] => false
  | p :: ps, c :: s => decide (p = c) && startsWith ps s

/-- Index of the first occurrence of `pat` as a substring (Python `str.find`;
`pat in s` holds exactly when this is `some`). -/
def findSub (pat : Txt) : Txt → Option Nat
  | [] => if pat = [] then some 0 else none
  | c :: rest =>
    if startsWith pat (c :: rest) then some 0
    else (findSub pat rest).map (· + 1)

/-- Scanner behind `removeAll`: with `skip = 0` it scans for the next
occurrence of `pat`; on a match it drops the first matched character and
sets `skip` to the remaining `pat.length - 1` characters to drop before
scanning resumes after the match. -/
def removeAllAux (pat : Txt) : Nat → Txt → Txt
  | _, [] => []
  | skip+1, _ :: rest => removeAllAux pat skip rest
  | 0, c :: rest =>
    if startsWith pat (c :: rest) then removeAllAux pat (pat.length - 1) rest
    else c :: removeAllAux pat 0 rest

/-- Python `s.replace(pat, '')`: delete every non-overlapping occurrence of
`pat`, scanning left to right (replacing by the empty pattern is the
identity, as in Python). -/
def removeAll : Txt → Txt → Txt
  | [], s => s
  | p :: ps, s => removeAllAux (p :: ps) 0 s

/-- Scan for the `>` closing a tag match of the regex `<[^<]+?>`: return the
text after the first `>`, failing at a `<` or at the end of the text. -/
def findTagClose : Txt → Option Txt
  | [] => none
  | c :: rest =>
    if c = '>' then some rest
    else if c = '<' then none
    else findTagClose rest

/-- One-pass scanner for `re.sub('<[^<]+?>', '', s)`.  The state is `none`
outside a candidate match and `some buf` after an opening `<`, where `buf`
holds the inner characters seen so far (reversed).  A `<` aborts the
candidate (its text is emitted literally, since the skipped inner characters
cannot start a match) and opens a new one; a `>` closes the candidate when at
least one inner character was seen — a lone `<>` keeps `>` as the first inner
character, matching the lazy `[^<]+?` which must consume one character. -/
def stripTagsAux : Option Txt → Txt → Txt
  | none, [] => []
  | none, c :: rest =>
    if c = '<' then stripTagsAux (some []) rest
    else c :: stripTagsAux none rest
  | some buf, [] => '<' :: buf.reverse
  | some buf, c :: rest =>
    if c = '<' then ('<' :: buf.reverse) ++ stripTagsAux (some []) rest
    else if c = '>' then
      if buf.isEmpty then stripTagsAux (some ['>']) rest
      else stripTagsAux none rest
    else stripTagsAux (some (c :: buf)) rest

/-- Python `re.sub('<[^<]+?>', '', s)` (line 47): delete every
leftmost-shortest match of the tag pattern in a single left-to-right pass. -/
def stripTags (s : Txt) : Txt := stripTagsAux none s

/-- Whether some position of the text starts a match of the tag regex
`<[^<]+?>` (a nonempty `<`-free run closed by `>`). -/
def hasTag : Txt → Bool
  | [] => false
  | c :: rest =>
    if c = '<' then
      match rest with
      | [] => false
      | d :: rest2 =>
        if d = '<' then hasTag rest
        else
          match findTagClose rest2 with
          | some _ => true
          | none => hasTag rest
    else hasTag rest

/-- The comment-text cleaning on line 47: strip HTML tags, then replace every
newline by a space. -/
def cleanText (t : Txt) : Txt :=
  (stripTags t).map fun c => if c = '\n' then ' ' else c

/-! ## Data model of the Collector (get_comments_data, lines 39-51) -/

/-- One raw top-level comment as delivered by the remote commentThreads API:
the fields `snippet.topLevelComment.snippet.publishedAt / .textDisplay` that
the code reads (lines 45-48). -/
structure RawComment where
  publishedAt : Txt
  textDisplay : Txt
deriving DecidableEq

/-- One page of the remote comment-listing response: its items and the
optional continuation token (`nextPageToken`). -/
structure Page where
  items : List RawComment
  nextPageToken : Option Txt
deriving DecidableEq

/-- A cleaned comment record as appended on line 48:
`{"time": publishedAt, "text": clean_txt}`. -/
structure Comment where
  time : Txt
  text : Txt
deriving DecidableEq

/-- Mocked behaviour of the remote comment-listing API for one collection run:
the single `commentThreads().list(...).execute()` call either raises, or
returns a first page; the further pages are what following the continuation
tokens would return (the code never requests them). -/
inductive ApiBehavior where
  | raise : ApiBehavior
  | respond : Page → List Page → ApiBehavior
deriving DecidableEq

/-- The record built from one raw item (lines 45-48). -/
def cleanItem (it : RawComment) : Comment :=
  ⟨it.publishedAt, cleanText it.textDisplay⟩

/-- The for-loop of lines 44-49: append the cleaned record for each item,
breaking as soon as the accumulated count has reached the limit (the check
sits after the append). -/
def collectLoop (limit : Nat) (acc : List Comment) : List RawComment → List Comment
  | [] => acc
  | it :: rest =>
    let acc2 := acc ++ [cleanItem it]
    if limit ≤ acc2.length then acc2 else collectLoop limit acc2 rest

/-- get_comments_data (lines 39-51): one commentThreads.list call, the append
loop over its items, and a bare `except` that returns an empty DataFrame. -/
def get_comments_data (api : ApiBehavior) (limit : Nat) : List Comment :=
  match api with
  | .raise => []
  | .respond page _ => collectLoop limit [] page.items

/-- Modelled from the spec: the per-page append loop of spec §4.1 steps 3-4
("Stop appending mid-page as soon as the running count reaches `maxCount`"),
used only to state the paginating collection that claim C1 asserts. -/
def specPageLoop (limit : Nat) (acc : List Comment) : List RawComment → List Comment
  | [] => acc
  | it :: rest =>
    if limit ≤ acc.length then acc
    else specPageLoop limit (acc ++ [cleanItem it]) rest

/-- Modelled from the spec: the paginating collector of spec §4.1 steps 2-6 —
walk the mocked page sequence, appending each page's items, advancing to the
next page on a continuation token and stopping when the count is reached or
no token remains.  Used only to state what claim C1 asserts of the code. -/
def specCollect (limit : Nat) (acc : List Comment) : List Page → List Comment
  | [] => acc
  | p :: rest =>
    let acc2 := specPageLoop limit acc p.items
    if limit ≤ acc2.length then acc2
    else
      match p.nextPageToken with
      | none => acc2
      | some _ => specCollect limit acc2 rest

/-! ## Data model of the Parser (analyze_with_gemini, lines 54-93) -/

/-- The header marker literal of lines 81-82. -/
def headerMarker : Txt := "감성|분류".toList

/-- The fenced-code tokens removed on line 83. -/
def fenceCsvTok : Txt := "```csv".toList

def fenceTok : Txt := "```".toList

/-- The tabular result: the (whitespace-stripped) column names and the
surviving data rows, each kept as its raw field list. -/
structure Table where
  header : List Txt
  rows : List (List Txt)
deriving DecidableEq

/-- Field-parsing modes of the csv.reader scan that pandas' python engine
delegates to (CPython `_csv`, dialect excel with delimiter `|`): before any
character of a record, at the start of a field, inside an unquoted field,
inside a quoted field, and just after a quote character inside a quoted
field. -/
inductive CsvMode where
  | startRecord
  | startField
  | inField
  | inQuoted
  | quoteInQuoted
deriving DecidableEq

/-- State of the csv.reader scan: the mode, the finished fields of the
current record (reversed), the characters of the current field (reversed),
and the completed records (reversed). -/
structure CsvSt where
  mode : CsvMode
  fields : List Txt
  field : Txt
  recs : List (List Txt)
deriving DecidableEq

/-- The record assembled from the finished fields and the current field. -/
def recOf (fields : List Txt) (field : Txt) : List Txt :=
  fields.reverse ++ [field.reverse]

/-- One step of csv.reader with delimiter `|`, quote character `"` and
doublequote handling: a quote opens quoting only at the start of a field, a
doubled quote inside a quoted field is a literal quote, delimiters and
newlines are literal inside quotes, text after a closing quote is appended
to the same field (the non-strict reader), a quote inside an unquoted field
is literal, and a newline ends the record (an empty line is the empty
record).  Carriage returns are outside the modelled domain: on a bare CR in
an unquoted field csv.reader raises, which `on_bad_lines='skip'` turns into
dropping that record; no theorem below evaluates the parse on a CR-bearing
input, and the claim theorems over table texts hypothesise CR-free lines. -/
def csvStep (st : CsvSt) (c : Char) : CsvSt :=
  match st.mode with
  | .startRecord =>
    if c = '\x22' then ⟨.inQuoted, st.fields, st.field, st.recs⟩
    else if c = '|' then ⟨.startField, [] :: st.fields, [], st.recs⟩
    else if c = '\n' then ⟨.startRecord, [], [], [] :: st.recs⟩
    else ⟨.inField, st.fields, c :: st.field, st.recs⟩
  | .startField =>
    if c = '\x22' then ⟨.inQuoted, st.fields, st.field, st.recs⟩
    else if c = '|' then ⟨.startField, [] :: st.fields, [], st.recs⟩
    else if c = '\n' then ⟨.startRecord, [], [], recOf st.fields [] :: st.recs⟩
    else ⟨.inField, st.fields, c :: st.field, st.recs⟩
  | .inField =>
    if c = '|' then ⟨.startField, st.field.reverse :: st.fields, [], st.recs⟩
    else if c = '\n' then ⟨.startRecord, [], [], recOf st.fields st.field :: st.recs⟩
    else ⟨.inField, st.fields, c :: st.field, st.recs⟩
  | .inQuoted =>
    if c = '\x22' then ⟨.quoteInQuoted, st.fields, st.field, st.recs⟩
    else ⟨.inQuoted, st.fields, c :: st.field, st.recs⟩
  | .quoteInQuoted =>
    if c = '\x22' then ⟨.inQuoted, st.fields, '\x22' :: st.field, st.recs⟩
    else if c = '|' then ⟨.startField, st.field.reverse :: st.fields, [], st.recs⟩
    else if c = '\n' then ⟨.startRecord, [], [], recOf st.fields st.field :: st.recs⟩
    else ⟨.inField, st.fields, c :: st.field, st.recs⟩

/-- Flush the scan state at the end of the input: an open field or a pending
delimiter still yields a final record; at a record boundary nothing is
pending. -/
def csvFinish (st : CsvSt) : List (List Txt) :=
  match st.mode with
  | .startRecord => st.recs.reverse
  | .startField => (recOf st.fields [] :: st.recs).reverse
  | .inField => (recOf st.fields st.field :: st.recs).reverse
  | .inQuoted => (recOf st.fields st.field :: st.recs).reverse
  | .quoteInQuoted => (recOf st.fields st.field :: st.recs).reverse

/-- csv.reader with delimiter `|` over the whole text: the list of records,
each a list of fields. -/
def csvParse (s : Txt) : List (List Txt) :=
  csvFinish (s.foldl csvStep ⟨.startRecord, [], [], []⟩)

/-- pandas blank-record removal (`_remove_empty_lines`): a record with at
least two fields is kept; a single-field record only when the field is not
whitespace-only; the empty record (a blank line) is dropped. -/
def keepRecord : List Txt → Bool
  | [] => false
  | [f] => !(pyStrip f).isEmpty
  | _ :: _ :: _ => true

/-- Reference field scan used by the proofs: splitting a quote-free line on
the delimiter, continuing a partial current field (both accumulators
reversed, as in `CsvSt`). -/
def scanFields (fields : List Txt) (field : Txt) : Txt → List Txt × Txt
  | [] => (fields, field)
  | c :: cs =>
    if c = '|' then scanFields (field.reverse :: fields) [] cs
    else scanFields fields (c :: field) cs

/-- Embeds `pd.read_csv(io.StringIO s, sep='|', on_bad_lines='skip',
engine='python')` (line 86) at the level the proofs need: the records come
from csv.reader (`csvParse`), blank records are removed, the first surviving
record is the header; if the first data record has more fields than the
header, the extra leading fields become an implicit index, widening the
expected field count; records with more fields than expected are bad lines
and are skipped; shorter records are kept (pandas pads them with NaN — the
padding and the placement of implicit index columns are not represented
here, only which records survive and their field lists).  An input with no
surviving record raises EmptyDataError in pandas, which the caller's
`except` turns into an empty DataFrame; it is embedded directly as the
empty table. -/
def readCsvPipe (s : Txt) : Table :=
  match (csvParse s).filter keepRecord with
  | [] => ⟨[], []⟩
  | header :: drecs =>
    let expected :=
      match drecs with
      | [] => header.length
      | d :: _ => max header.length d.length
    ⟨header, drecs.filter fun r => r.length ≤ expected⟩

/-- The table-extraction portion of analyze_with_gemini (lines 81-89): locate
the header marker, truncate to it, delete the code-fence tokens, strip, read
the pipe-delimited CSV, and strip whitespace from every column name.  When
the marker is absent the empty table is returned (line 90). -/
def extractTable (res_txt : Txt) : Table :=
  match findSub headerMarker res_txt with
  | none => ⟨[], []⟩
  | some i =>
    let clean_csv := pyStrip (removeAll fenceTok (removeAll fenceCsvTok (res_txt.drop i)))
    let t := readCsvPipe clean_csv
    ⟨t.header.map pyStrip, t.rows⟩

/-- Result of the black-box `model.generate_content` call (line 77): it
either raises or returns the response text. -/
inductive GenResult where
  | raise : GenResult
  | ok : Txt → GenResult

/-- One bullet of the prompt (line 62): `f"- {t[:150]}"`. -/
def bulletLine (t : Txt) : Txt := '-' :: ' ' :: t.take 150

/-- raw_text of line 62: `"\n".join(f"- {t[:150]}" for t in df['text'])`. -/
def buildRawText (texts : List Txt) : Txt :=
  ['\n'].intercalate (texts.map bulletLine)

/-- The instruction block of the prompt f-string (lines 64-73) before the
substituted raw_text. -/
def promptPre : Txt :=
  ("\n    당신은 전문 데이터 분석가입니다. 아래 댓글들을 분석하여 보고서를 작성하세요.\n    1. 핵심 주제(분류)를 영상 내용에 맞게 생성하세요 (최대 9개). \n    2. 모든 댓글을 [감성, 분류, 키워드, 내용]으로 분류하세요.\n    3. 반드시 \x27|\x27 구분자를 사용한 CSV 형식으로만 출력하세요.\n    4. 반드시 \x27감성|분류|키워드|내용\x27 헤더를 포함하고, 다른 말은 하지 마세요.\n    \n    댓글 목록:\n    ").toList

/-- The tail of the prompt f-string after the substituted raw_text. -/
def promptPost : Txt := "\n    ".toList

/-- The full prompt of lines 64-73. -/
def mkPrompt (raw : Txt) : Txt := promptPre ++ raw ++ promptPost

/-- analyze_with_gemini (lines 54-93), the generate call a black box: an
empty input is answered immediately (line 56); a raising generate call, like
any other exception in the try block, yields the empty result (lines 91-93);
otherwise the stripped response text is fed to the table extraction. -/
def analyze_with_gemini (gen : Txt → GenResult) (df : List Comment) : Table :=
  if df.isEmpty then ⟨[], []⟩
  else
    match gen (mkPrompt (buildRawText (df.map Comment.text))) with
    | .raise => ⟨[], []⟩
    | .ok t => extractTable (pyStrip t)

/-! ## Concrete fixtures used by witnesses and counterexamples -/

/-- A mocked first page holding one comment and a continuation token. -/
def exPage1 : Page := ⟨[⟨"t1".toList, "hello".toList⟩], some ("tok".toList)⟩

/-- A mocked second page holding one comment and no continuation token. -/
def exPage2 : Page := ⟨[⟨"t2".toList, "world".toList⟩], none⟩

/-- The happy-path response text of spec §8, with the header of the code. -/
def happyText : Txt :=
  ("preamble\n감성|분류|키워드|내용\npositive|topicA|kw1|hello\nnegative|topicB|kw2|world").toList

/-- A table text whose first data row carries one extra field. -/
def malformedFirstText : Txt :=
  ("감성|분류|키워드|내용\na|b|c|d|e\nf|g|h|i").toList

/-! ## Helper lemmas about the collector loop -/

theorem collectLoop_eq_take (limit : Nat) :
    ∀ (items : List RawComment) (acc : List Comment), acc.length < limit →
      collectLoop limit acc items = acc ++ (items.map cleanItem).take (limit - acc.length) := by
  intro items
  induction items with
  | nil => intro acc _; simp [collectLoop]
  | cons it rest ih =>
    intro acc h
    simp only [collectLoop, List.map_cons]
    by_cases hstop : limit ≤ (acc ++ [cleanItem it]).length
    · rw [if_pos hstop]
      have hlen : (acc ++ [cleanItem it]).length = acc.length + 1 := by simp
      have heq : limit - acc.length = 1 := by omega
      rw [heq]
      simp [List.take_succ_cons]
    · rw [if_neg hstop]
      have hlen : (acc ++ [cleanItem it]).length = acc.length + 1 := by simp
      have h2 : (acc ++ [cleanItem it]).length < limit := by omega
      rw [ih _ h2]
      obtain ⟨k, hk⟩ : ∃ k, limit - acc.length = k + 1 := ⟨limit - acc.length - 1, by omega⟩
      have hk2 : limit - (acc ++ [cleanItem it]).length = k := by omega
      rw [hk, hk2, List.take_succ_cons]
      simp

theorem mem_collectLoop {limit : Nat} :
    ∀ {items : List RawComment} {acc : List Comment} {c : Comment},
      c ∈ collectLoop limit acc items → c ∈ acc ∨ ∃ it ∈ items, c = cleanItem it := by
  intro items
  induction items with
  | nil =>
    intro acc c h
    simp only [collectLoop] at h
    exact Or.inl h
  | cons it rest ih =>
    intro acc c h
    simp only [collectLoop] at h
    by_cases hs : limit ≤ (acc ++ [cleanItem it]).length
    · rw [if_pos hs] at h
      rcases List.mem_append.mp h with h1 | h2
      · exact Or.inl h1
      · exact Or.inr ⟨it, by simp, by simpa using h2⟩
    · rw [if_neg hs] at h
      rcases ih h with h1 | ⟨it2, hm, he⟩
      · rcases List.mem_append.mp h1 with ha | hb
        · exact Or.inl ha
        · exact Or.inr ⟨it, by simp, by simpa using hb⟩
      · exact Or.inr ⟨it2, by simp [hm], he⟩

theorem no_newline_cleanText (t : Txt) : '\n' ∉ cleanText t := by
  intro hmem
  unfold cleanText at hmem
  rcases List.mem_map.mp hmem with ⟨a, _, ha⟩
  by_cases h : a = '\n'
  · rw [if_pos h] at ha
    exact absurd ha (by decide)
  · rw [if_neg h] at ha
    exact h ha

/-! ## Claim theorems: the Collector -/

/-- C1 counterexample: on the mocked two-page sequence whose last page omits
the continuation token, get_comments_data returns only the first page's item
— not the concatenation of both pages that the claim asserts (stated by the
spec-modelled paginating collector `specCollect`), because the code issues a
single request and never follows the continuation token. -/
theorem c1_counterexample :
    get_comments_data (.respond exPage1 [exPage2]) 50
        = [⟨"t1".toList, "hello".toList⟩] ∧
      specCollect 50 [] [exPage1, exPage2]
        = [⟨"t1".toList, "hello".toList⟩, ⟨"t2".toList, "world".toList⟩] ∧
      get_comments_data (.respond exPage1 [exPage2]) 50
        ≠ specCollect 50 [] [exPage1, exPage2] := by
  decide

/-- C1 (amended): for every mocked page sequence and every maxCount ≥ 1, the
collector terminates and returns exactly the first page's items, cleaned, in
order, truncated to maxCount; continuation tokens are never followed. -/
theorem c1_single_page (page : Page) (more : List Page) (limit : Nat)
    (h : 1 ≤ limit) :
    get_comments_data (.respond page more) limit
      = (page.items.map cleanItem).take limit := by
  have h0 : get_comments_data (.respond page more) limit
      = collectLoop limit [] page.items := rfl
  rw [h0, collectLoop_eq_take limit page.items [] (by simpa using h)]
  simp

/-- Witness for c1_single_page at the two-page mock and maxCount 50. -/
theorem c1_single_page_witness :
    1 ≤ 50 ∧
      get_comments_data (.respond exPage1 [exPage2]) 50
        = (exPage1.items.map cleanItem).take 50 :=
  ⟨by decide, c1_single_page exPage1 [exPage2] 50 (by decide)⟩

/-- C2 counterexample: when the remote call raises, get_comments_data returns
the ordinary empty result — the very value a successful collection of zero
comments returns — so no CollectionError reaches the caller; the bare
`except` swallows the error instead of reporting it. -/
theorem c2_counterexample :
    get_comments_data .raise 50 = [] ∧
      get_comments_data .raise 50
        = get_comments_data (.respond ⟨[], none⟩ []) 50 := by
  decide

/-- C2 (amended): for every limit, an erroring remote call makes the
collector return the empty sequence, indistinguishable from a successful
empty collection; the error is swallowed rather than surfaced. -/
theorem c2_error_swallowed (limit : Nat) :
    get_comments_data .raise limit = [] := rfl

/-- C3: for every maxCount > 0 and every behaviour of the remote API, the
collector returns at most maxCount comments. -/
theorem c3_count_bound (api : ApiBehavior) (limit : Nat) (h : 0 < limit) :
    (get_comments_data api limit).length ≤ limit := by
  cases api with
  | raise => simp [get_comments_data]
  | respond page more =>
    have h0 : get_comments_data (.respond page more) limit
        = collectLoop limit [] page.items := rfl
    rw [h0, collectLoop_eq_take limit page.items [] (by simpa using h)]
    simp only [List.nil_append, List.length_take]
    omega

/-- Witness for c3_count_bound at the two-page mock and maxCount 50. -/
theorem c3_count_bound_witness :
    0 < 50 ∧ (get_comments_data (.respond exPage1 [exPage2]) 50).length ≤ 50 :=
  ⟨by decide, c3_count_bound (.respond exPage1 [exPage2]) 50 (by decide)⟩

/-- C9 counterexample: the single left-to-right pass of
`re.sub('<[^<]+?>', '', ...)` can leave a tag-shaped substring behind: for
the raw comment text `<<a>b>` the collector outputs the text `<b>`, which
still contains an HTML tag, refuting the claimed no-tag invariant. -/
theorem c9_counterexample :
    get_comments_data (.respond ⟨[⟨"t".toList, "<<a>b>".toList⟩], none⟩ []) 50
        = [⟨"t".toList, "<b>".toList⟩] ∧
      hasTag ("<b>".toList) = true := by
  decide

/-- C9 (amended): every comment record the collector outputs has a text free
of newline characters (each newline of the raw text is replaced by a space
after the tag-removal pass); the tag removal itself is a single pass and may
leave tag-shaped substrings, so no no-tag invariant holds. -/
theorem c9_no_newline (api : ApiBehavior) (limit : Nat) (c : Comment)
    (hc : c ∈ get_comments_data api limit) : '\n' ∉ c.text := by
  cases api with
  | raise => simp [get_comments_data] at hc
  | respond page more =>
    unfold get_comments_data at hc
    rcases mem_collectLoop hc with h | ⟨it, _, he⟩
    · simp at h
    · rw [he]
      exact no_newline_cleanText it.textDisplay

/-- Witness for c9_no_newline on a raw text holding a newline. -/
theorem c9_no_newline_witness :
    (⟨"t".toList, "a b".toList⟩ : Comment) ∈
        get_comments_data (.respond ⟨[⟨"t".toList, "a\nb".toList⟩], none⟩ []) 50 ∧
      '\n' ∉ (⟨"t".toList, "a b".toList⟩ : Comment).text :=
  ⟨by decide,
    c9_no_newline (.respond ⟨[⟨"t".toList, "a\nb".toList⟩], none⟩ []) 50
      ⟨"t".toList, "a b".toList⟩ (by decide)⟩

/-! ## Claim theorems: the Parser, direct computations -/

/-- C4: whenever the header marker does not occur in the response text, the
table extraction returns the empty table — the designed failure path; the
extraction is a total function, so no exception can escape it (the source
wraps it in a catch-all `except` in any case). -/
theorem c4_marker_miss (res : Txt) (h : findSub headerMarker res = none) :
    extractTable res = ⟨[], []⟩ := by
  unfold extractTable
  rw [h]

/-- Witness for c4_marker_miss at the spec's example text `hello world`. -/
theorem c4_marker_miss_witness :
    findSub headerMarker ("hello world".toList) = none ∧
      extractTable ("hello world".toList) = ⟨[], []⟩ :=
  ⟨by decide, c4_marker_miss _ (by decide)⟩

/-- C5: on the happy-path text — a prose preamble line, the header line and
two data rows — the parser discards the preamble and returns exactly the two
rows, keyed by the header's column names, in file order. -/
theorem c5_happy_path :
    extractTable happyText =
      ⟨["감성".toList, "분류".toList, "키워드".toList, "내용".toList],
        [["positive".toList, "topicA".toList, "kw1".toList, "hello".toList],
          ["negative".toList, "topicB".toList, "kw2".toList, "world".toList]]⟩ := by
  decide

/-- C8: every line of the prompt's bullet list comes from one collected
comment and carries that comment's text truncated to at most 150
characters (`f"- {t[:150]}"` on line 62). -/
theorem c8_bullet_truncation (df : List Comment) (l : Txt)
    (hl : l ∈ (df.map Comment.text).map bulletLine) :
    (l.drop 2).length ≤ 150 ∧
      ∃ c ∈ df, l = bulletLine c.text ∧ l.drop 2 = c.text.take 150 := by
  rcases List.mem_map.mp hl with ⟨t, ht, rfl⟩
  rcases List.mem_map.mp ht with ⟨c, hc, rfl⟩
  refine ⟨?_, c, hc, rfl, rfl⟩
  simp only [bulletLine, List.drop_succ_cons, List.drop_zero, List.length_take]
  omega

/-- Witness for c8_bullet_truncation at a one-comment collection. -/
theorem c8_bullet_truncation_witness :
    ((bulletLine ("hello".toList)).drop 2).length ≤ 150 ∧
      ∃ c ∈ [(⟨"t".toList, "hello".toList⟩ : Comment)],
        bulletLine ("hello".toList) = bulletLine c.text ∧
          (bulletLine ("hello".toList)).drop 2 = c.text.take 150 :=
  c8_bullet_truncation [⟨"t".toList, "hello".toList⟩] _ (by decide)

/-- C10: on the empty comment collection the classification stage returns
the empty result at once, for every behaviour of the generative API — the
generate call plays no part in the outcome. -/
theorem c10_empty_short_circuit (gen : Txt → GenResult) :
    analyze_with_gemini gen [] = ⟨[], []⟩ := rfl

/-! ## Helper lemmas: startsWith and findSub -/

theorem startsWith_append_of_startsWith {pat : Txt} :
    ∀ {x : Txt}, startsWith pat x = true → ∀ y : Txt, startsWith pat (x ++ y) = true := by
  induction pat with
  | nil => intro x _ y; simp [startsWith]
  | cons p ps ih =>
    intro x h y
    cases x with
    | nil => simp [startsWith] at h
    | cons c x2 =>
      simp only [startsWith, Bool.and_eq_true, decide_eq_true_eq] at h
      simp only [List.cons_append, startsWith, Bool.and_eq_true, decide_eq_true_eq]
      exact ⟨h.1, ih h.2 y⟩

theorem startsWith_append_self (pat z : Txt) : startsWith pat (pat ++ z) = true := by
  have hrefl : startsWith pat pat = true := by
    induction pat with
    | nil => rfl
    | cons p ps ih => simp [startsWith, ih]
  exact startsWith_append_of_startsWith hrefl z

theorem startsWith_of_append_right {pat : Txt} :
    ∀ {x y : Txt}, startsWith pat (x ++ y) = true → (∀ c ∈ pat, c ∉ y) →
      startsWith pat x = true := by
  induction pat with
  | nil => intro x y _ _; simp [startsWith]
  | cons p ps ih =>
    intro x y h hd
    cases x with
    | nil =>
      exfalso
      cases y with
      | nil => simp [startsWith] at h
      | cons d y2 =>
        simp only [List.nil_append, startsWith, Bool.and_eq_true, decide_eq_true_eq] at h
        exact hd p (List.mem_cons_self p ps) (h.1 ▸ List.mem_cons_self d y2)
    | cons c x2 =>
      simp only [List.cons_append, startsWith, Bool.and_eq_true, decide_eq_true_eq] at h
      simp only [startsWith, Bool.and_eq_true, decide_eq_true_eq]
      exact ⟨h.1, ih h.2 (fun a ha => hd a (List.mem_cons_of_mem p ha))⟩

theorem findSub_none_of_head_notMem {p : Char} {ps : Txt} :
    ∀ {s : Txt}, p ∉ s → findSub (p :: ps) s = none := by
  intro s
  induction s with
  | nil => intro _; simp [findSub]
  | cons c rest ih =>
    intro h
    have hpc : ¬p = c := fun he => h (he ▸ List.mem_cons_self c rest)
    have hrest : p ∉ rest := fun hm => h (List.mem_cons_of_mem c hm)
    simp [findSub, startsWith, hpc, ih hrest]

theorem findSub_of_startsWith {p : Char} {ps : Txt} :
    ∀ {s : Txt}, startsWith (p :: ps) s = true → findSub (p :: ps) s = some 0 := by
  intro s h
  cases s with
  | nil => simp [startsWith] at h
  | cons c rest => simp [findSub, h]

theorem findSub_append_left {p : Char} {ps b : Txt} :
    ∀ a : Txt, p ∉ a →
      findSub (p :: ps) (a ++ b) = (findSub (p :: ps) b).map (· + a.length) := by
  intro a
  induction a with
  | nil =>
    intro _
    simp only [List.nil_append, List.length_nil]
    cases findSub (p :: ps) b <;> simp
  | cons c a2 ih =>
    intro h
    have hpc : ¬p = c := fun he => h (he ▸ List.mem_cons_self c a2)
    have ha2 : p ∉ a2 := fun hm => h (List.mem_cons_of_mem c hm)
    have hsw : startsWith (p :: ps) (c :: (a2 ++ b)) = false := by
      simp [startsWith, hpc]
    rw [List.cons_append]
    simp only [findSub]
    rw [if_neg (by simp [hsw]), ih ha2]
    cases findSub (p :: ps) b with
    | none => simp
    | some j =>
      simp only [Option.map_some', List.length_cons, Option.some.injEq]
      omega

theorem findSub_append_of_disjoint {p : Char} {ps b : Txt}
    (hd : ∀ c ∈ p :: ps, c ∉ b) :
    ∀ a : Txt, findSub (p :: ps) (a ++ b) = findSub (p :: ps) a := by
  intro a
  induction a with
  | nil =>
    rw [List.nil_append, findSub_none_of_head_notMem (hd p (List.mem_cons_self p ps))]
    rfl
  | cons c a2 ih =>
    by_cases hs : startsWith (p :: ps) (c :: a2) = true
    · have hs2 := startsWith_append_of_startsWith hs b
      rw [List.cons_append] at hs2
      rw [List.cons_append]
      simp only [findSub]
      rw [if_pos hs2, if_pos hs]
    · have hs1 : startsWith (p :: ps) (c :: a2) = false := by
        revert hs; cases startsWith (p :: ps) (c :: a2) <;> simp
      have hs2 : startsWith (p :: ps) (c :: (a2 ++ b)) = false := by
        by_contra hcon
        have htrue : startsWith (p :: ps) (c :: (a2 ++ b)) = true := by
          revert hcon; cases startsWith (p :: ps) (c :: (a2 ++ b)) <;> simp
        have := startsWith_of_append_right (x := c :: a2) (y := b)
          (by simpa using htrue) hd
        rw [this] at hs1
        simp at hs1
      rw [List.cons_append]
      simp only [findSub]
      rw [if_neg (by simp [hs2]), if_neg (by simp [hs1]), ih]

theorem findSub_some_le_length {pat : Txt} :
    ∀ {s : Txt} {i : Nat}, findSub pat s = some i → i ≤ s.length := by
  intro s
  induction s with
  | nil =>
    intro i h
    simp only [findSub] at h
    split at h
    · cases h; omega
    · cases h
  | cons c rest ih =>
    intro i h
    simp only [findSub] at h
    split at h
    · cases h; simp
    · cases hfr : findSub pat rest with
      | none => rw [hfr] at h; cases h
      | some j =>
        rw [hfr] at h
        simp only [Option.map_some'] at h
        cases h
        have := ih hfr
        simp only [List.length_cons]
        omega

/-! ## Helper lemmas: removeAll -/

theorem removeAllAux_append_left {p : Char} (ps : Txt) {b : Txt} :
    ∀ a : Txt, p ∉ a →
      removeAllAux (p :: ps) 0 (a ++ b) = a ++ removeAllAux (p :: ps) 0 b := by
  intro a
  induction a with
  | nil => intro _; simp
  | cons c a2 ih =>
    intro h
    have hpc : ¬p = c := fun he => h (he ▸ List.mem_cons_self c a2)
    have ha2 : p ∉ a2 := fun hm => h (List.mem_cons_of_mem c hm)
    have hsw : startsWith (p :: ps) (c :: (a2 ++ b)) = false := by
      simp [startsWith, hpc]
    simp only [List.cons_append, removeAllAux, List.append_eq, hsw, Bool.false_eq_true,
      if_false, ih ha2]

theorem removeAll_append_left {p : Char} {ps a b : Txt} (h : p ∉ a) :
    removeAll (p :: ps) (a ++ b) = a ++ removeAll (p :: ps) b :=
  removeAllAux_append_left ps a h

theorem removeAll_of_notMem {p : Char} {ps a : Txt} (h : p ∉ a) :
    removeAll (p :: ps) a = a := by
  have h2 := removeAllAux_append_left ps (b := []) a h
  rw [List.append_nil] at h2
  have h3 : removeAllAux (p :: ps) 0 ([] : Txt) = [] := rfl
  rw [h3, List.append_nil] at h2
  exact h2

/-! ## Helper lemmas: pyStrip -/

theorem pyStrip_cons_space {d : Char} (hd : isSpaceChar d = true) (y : Txt) :
    pyStrip (d :: y) = pyStrip y := by
  simp [pyStrip, List.dropWhile_cons, hd]

theorem pyStrip_append_space {c : Char} (hc : isSpaceChar c = true) :
    ∀ x : Txt, pyStrip (x ++ [c]) = pyStrip x := by
  intro x
  induction x with
  | nil => simp [pyStrip, List.dropWhile_cons, hc]
  | cons d x2 ih =>
    by_cases hd : isSpaceChar d = true
    · rw [List.cons_append, pyStrip_cons_space hd, pyStrip_cons_space hd, ih]
    · unfold pyStrip
      rw [List.cons_append, List.dropWhile_cons_of_neg (by simpa using hd),
        List.dropWhile_cons_of_neg (by simpa using hd)]
      rw [List.reverse_cons, List.reverse_cons, List.reverse_append]
      simp only [List.reverse_cons, List.reverse_nil, List.nil_append, List.cons_append]
      rw [List.dropWhile_cons_of_pos hc]

/-! ## Helper lemmas: intercalate and splitOn -/

theorem intercalate_nl_cons (x y : Txt) (tl : List Txt) :
    ['\n'].intercalate (x :: y :: tl) = x ++ '\n' :: ['\n'].intercalate (y :: tl) := by
  simp [List.intercalate, List.intersperse_cons_cons, List.flatten_cons]

theorem mem_intercalate_nl {c : Char} :
    ∀ ls : List Txt, c ∈ ['\n'].intercalate ls → c = '\n' ∨ ∃ l ∈ ls, c ∈ l := by
  intro ls
  induction ls with
  | nil => intro h; simp [List.intercalate, List.flatten] at h
  | cons x tl ih =>
    cases tl with
    | nil =>
      intro h
      simp only [List.intercalate, List.intersperse_singleton, List.flatten_cons,
        List.flatten_nil, List.append_nil] at h
      exact Or.inr ⟨x, by simp, h⟩
    | cons y tl2 =>
      intro h
      rw [intercalate_nl_cons] at h
      rcases List.mem_append.mp h with h1 | h2
      · exact Or.inr ⟨x, by simp, h1⟩
      · rcases List.mem_cons.mp h2 with h3 | h4
        · exact Or.inl h3
        · rcases ih h4 with h5 | ⟨l, hl, hcl⟩
          · exact Or.inl h5
          · exact Or.inr ⟨l, List.mem_cons_of_mem x hl, hcl⟩

theorem splitOn_length_of_mem {c : Char} :
    ∀ {l : Txt}, c ∈ l → 2 ≤ (l.splitOn c).length := by
  intro l
  induction l with
  | nil => intro h; cases h
  | cons x xs ih =>
    intro h
    unfold List.splitOn at ih ⊢
    rw [List.splitOnP_cons]
    by_cases hx : x = c
    · rw [if_pos (by simp [hx])]
      have := List.splitOnP_ne_nil (· == c) xs
      have hlen : 1 ≤ (xs.splitOnP (· == c)).length := by
        cases hsp : xs.splitOnP (· == c) with
        | nil => exact absurd hsp this
        | cons a b => simp
      simp only [List.length_cons]
      omega
    · rw [if_neg (by simp [hx])]
      have hmem : c ∈ xs := by
        rcases List.mem_cons.mp h with h1 | h2
        · exact absurd h1.symm hx
        · exact h2
      have := ih hmem
      cases hsp : xs.splitOnP (· == c) with
      | nil => exact absurd hsp (List.splitOnP_ne_nil (· == c) xs)
      | cons a b =>
        rw [hsp] at this
        simp only [List.modifyHead_cons, List.length_cons] at this ⊢
        omega

/-! ## Helper lemmas: the two branches of extractTable -/

theorem extractTable_none {res : Txt} (h : findSub headerMarker res = none) :
    extractTable res = ⟨[], []⟩ := by
  unfold extractTable
  rw [h]

theorem extractTable_some {res : Txt} {i : Nat} (h : findSub headerMarker res = some i) :
    extractTable res =
      ⟨(readCsvPipe (pyStrip (removeAll fenceTok
          (removeAll fenceCsvTok (res.drop i))))).header.map pyStrip,
        (readCsvPipe (pyStrip (removeAll fenceTok
          (removeAll fenceCsvTok (res.drop i))))).rows⟩ := by
  unfold extractTable
  rw [h]

/-- Wrapping a backtick-free text in any marker-free leading fence line and
the trailing fence line leaves the extracted table unchanged: the leading
fence falls to the truncation at the header marker, the trailing fence to
the fence-token removal, and the leftover newline to the final strip. -/
theorem extractTable_wrap (pre : Txt) (hpre : '감' ∉ pre) (T : Txt)
    (hT : '\x60' ∉ T) :
    extractTable (pre ++ (T ++ "\n```".toList)) = extractTable T := by
  have hmk : headerMarker = '감' :: "성|분류".toList := rfl
  have htail : ∀ a : Txt,
      findSub headerMarker (a ++ "\n```".toList) = findSub headerMarker a := by
    rw [hmk]
    exact findSub_append_of_disjoint (by decide)
  have hhead : findSub headerMarker (pre ++ (T ++ "\n```".toList))
      = (findSub headerMarker (T ++ "\n```".toList)).map (· + pre.length) := by
    rw [hmk]
    exact findSub_append_left pre hpre
  cases hfT : findSub headerMarker T with
  | none =>
    have h1 : findSub headerMarker (pre ++ (T ++ "\n```".toList)) = none := by
      rw [hhead, htail T, hfT]
      rfl
    rw [extractTable_none h1, extractTable_none hfT]
  | some i =>
    have hi : i ≤ T.length := findSub_some_le_length hfT
    have h1 : findSub headerMarker (pre ++ (T ++ "\n```".toList))
        = some (i + pre.length) := by
      rw [hhead, htail T, hfT]
      rfl
    rw [extractTable_some h1, extractTable_some hfT]
    have hdrop : (pre ++ (T ++ "\n```".toList)).drop (i + pre.length)
        = T.drop i ++ "\n```".toList := by
      rw [Nat.add_comm i pre.length, List.drop_append,
        List.drop_append_of_le_length hi]
    rw [hdrop]
    have hTd : '\x60' ∉ T.drop i := fun hm => hT (List.drop_subset i T hm)
    have h2 : removeAll fenceCsvTok (T.drop i ++ "\n```".toList)
        = T.drop i ++ "\n```".toList := by
      rw [show fenceCsvTok = '\x60' :: "``csv".toList from rfl,
        removeAll_append_left hTd,
        show removeAll ('\x60' :: "``csv".toList) ("\n```".toList)
          = "\n```".toList from by decide]
    have h3 : removeAll fenceTok (T.drop i ++ "\n```".toList)
        = T.drop i ++ ['\n'] := by
      rw [show fenceTok = '\x60' :: "``".toList from rfl,
        removeAll_append_left hTd,
        show removeAll ('\x60' :: "``".toList) ("\n```".toList)
          = ['\n'] from by decide]
    have h4 : removeAll fenceCsvTok (T.drop i) = T.drop i := by
      rw [show fenceCsvTok = '\x60' :: "``csv".toList from rfl,
        removeAll_of_notMem hTd]
    have h5 : removeAll fenceTok (T.drop i) = T.drop i := by
      rw [show fenceTok = '\x60' :: "``".toList from rfl,
        removeAll_of_notMem hTd]
    rw [h2, h3, h4, h5, pyStrip_append_space (by decide) (T.drop i)]

/-- C6: for every backtick-free (in particular, every well-formed) table
text, wrapping it in a leading and trailing markdown code fence — with or
without a language tag — yields the same extracted table as the unwrapped
text; fence tokens are removed anywhere in the truncated text. -/
theorem c6_fence_invariance (T : Txt) (hT : '\x60' ∉ T) :
    extractTable ("```csv\n".toList ++ T ++ "\n```".toList) = extractTable T ∧
      extractTable ("```\n".toList ++ T ++ "\n```".toList) = extractTable T :=
  ⟨extractTable_wrap ("```csv\n".toList) (by decide) T hT,
    extractTable_wrap ("```\n".toList) (by decide) T hT⟩

/-- Witness for c6_fence_invariance at the happy-path text. -/
theorem c6_fence_invariance_witness :
    '\x60' ∉ happyText ∧
      (extractTable ("```csv\n".toList ++ happyText ++ "\n```".toList)
          = extractTable happyText ∧
        extractTable ("```\n".toList ++ happyText ++ "\n```".toList)
          = extractTable happyText) :=
  ⟨by decide, c6_fence_invariance happyText (by decide)⟩

/-! ## Helper lemmas: the csv.reader scan on quote-free lines -/

theorem csvStep_startRecord_eq {c : Char} (hq : ¬c = '\x22') (hn : ¬c = '\n')
    (recs : List (List Txt)) :
    csvStep ⟨.startRecord, [], [], recs⟩ c = csvStep ⟨.inField, [], [], recs⟩ c := by
  by_cases hc : c = '|'
  · subst hc
    rfl
  · simp [csvStep, hq, hn, hc]

theorem csv_fold_line_nl (rest : Txt) :
    ∀ l : Txt, '\x22' ∉ l → '\n' ∉ l →
      ∀ (fields : List Txt) (field : Txt) (recs : List (List Txt)),
        (List.foldl csvStep ⟨.inField, fields, field, recs⟩ (l ++ '\n' :: rest)
          = List.foldl csvStep
              ⟨.startRecord, [], [],
                recOf (scanFields fields field l).1 (scanFields fields field l).2 :: recs⟩
              rest)
        ∧ (List.foldl csvStep ⟨.startField, fields, [], recs⟩ (l ++ '\n' :: rest)
          = List.foldl csvStep
              ⟨.startRecord, [], [],
                recOf (scanFields fields [] l).1 (scanFields fields [] l).2 :: recs⟩
              rest) := by
  intro l
  induction l with
  | nil =>
    intro _ _ fields field recs
    constructor
    · rw [List.nil_append, List.foldl_cons]
      rfl
    · rw [List.nil_append, List.foldl_cons]
      rfl
  | cons c cs ih =>
    intro hq hn fields field recs
    have hqc : ¬c = '\x22' := fun h => hq (h ▸ List.mem_cons_self c cs)
    have hnc : ¬c = '\n' := fun h => hn (h ▸ List.mem_cons_self c cs)
    have hq2 : '\x22' ∉ cs := fun h => hq (List.mem_cons_of_mem c h)
    have hn2 : '\n' ∉ cs := fun h => hn (List.mem_cons_of_mem c h)
    constructor
    · by_cases hc : c = '|'
      · subst hc
        rw [List.cons_append, List.foldl_cons,
          show csvStep ⟨.inField, fields, field, recs⟩ '|'
            = ⟨.startField, field.reverse :: fields, [], recs⟩ from rfl,
          (ih hq2 hn2 (field.reverse :: fields) [] recs).2,
          show scanFields fields field ('|' :: cs)
            = scanFields (field.reverse :: fields) [] cs from by simp [scanFields]]
      · rw [List.cons_append, List.foldl_cons,
          show csvStep ⟨.inField, fields, field, recs⟩ c
            = ⟨.inField, fields, c :: field, recs⟩ from by simp [csvStep, hc, hnc],
          (ih hq2 hn2 fields (c :: field) recs).1,
          show scanFields fields field (c :: cs)
            = scanFields fields (c :: field) cs from by simp [scanFields, hc]]
    · by_cases hc : c = '|'
      · subst hc
        rw [List.cons_append, List.foldl_cons,
          show csvStep ⟨.startField, fields, [], recs⟩ '|'
            = ⟨.startField, [] :: fields, [], recs⟩ from rfl,
          (ih hq2 hn2 ([] :: fields) [] recs).2,
          show scanFields fields [] ('|' :: cs)
            = scanFields ([] :: fields) [] cs from by simp [scanFields]]
      · rw [List.cons_append, List.foldl_cons,
          show csvStep ⟨.startField, fields, [], recs⟩ c
            = ⟨.inField, fields, [c], recs⟩ from by simp [csvStep, hqc, hnc, hc],
          (ih hq2 hn2 fields [c] recs).1,
          show scanFields fields [] (c :: cs)
            = scanFields fields [c] cs from by simp [scanFields, hc]]

theorem csv_fold_line_finish :
    ∀ l : Txt, '\x22' ∉ l → '\n' ∉ l →
      ∀ (fields : List Txt) (field : Txt) (recs : List (List Txt)),
        (csvFinish (List.foldl csvStep ⟨.inField, fields, field, recs⟩ l)
          = (recOf (scanFields fields field l).1 (scanFields fields field l).2
              :: recs).reverse)
        ∧ (csvFinish (List.foldl csvStep ⟨.startField, fields, [], recs⟩ l)
          = (recOf (scanFields fields [] l).1 (scanFields fields [] l).2
              :: recs).reverse) := by
  intro l
  induction l with
  | nil =>
    intro _ _ fields field recs
    exact ⟨rfl, rfl⟩
  | cons c cs ih =>
    intro hq hn fields field recs
    have hqc : ¬c = '\x22' := fun h => hq (h ▸ List.mem_cons_self c cs)
    have hnc : ¬c = '\n' := fun h => hn (h ▸ List.mem_cons_self c cs)
    have hq2 : '\x22' ∉ cs := fun h => hq (List.mem_cons_of_mem c h)
    have hn2 : '\n' ∉ cs := fun h => hn (List.mem_cons_of_mem c h)
    constructor
    · by_cases hc : c = '|'
      · subst hc
        rw [List.foldl_cons,
          show csvStep ⟨.inField, fields, field, recs⟩ '|'
            = ⟨.startField, field.reverse :: fields, [], recs⟩ from rfl,
          (ih hq2 hn2 (field.reverse :: fields) [] recs).2,
          show scanFields fields field ('|' :: cs)
            = scanFields (field.reverse :: fields) [] cs from by simp [scanFields]]
      · rw [List.foldl_cons,
          show csvStep ⟨.inField, fields, field, recs⟩ c
            = ⟨.inField, fields, c :: field, recs⟩ from by simp [csvStep, hc, hnc],
          (ih hq2 hn2 fields (c :: field) recs).1,
          show scanFields fields field (c :: cs)
            = scanFields fields (c :: field) cs from by simp [scanFields, hc]]
    · by_cases hc : c = '|'
      · subst hc
        rw [List.foldl_cons,
          show csvStep ⟨.startField, fields, [], recs⟩ '|'
            = ⟨.startField, [] :: fields, [], recs⟩ from rfl,
          (ih hq2 hn2 ([] :: fields) [] recs).2,
          show scanFields fields [] ('|' :: cs)
            = scanFields ([] :: fields) [] cs from by simp [scanFields]]
      · rw [List.foldl_cons,
          show csvStep ⟨.startField, fields, [], recs⟩ c
            = ⟨.inField, fields, [c], recs⟩ from by simp [csvStep, hqc, hnc, hc],
          (ih hq2 hn2 fields [c] recs).1,
          show scanFields fields [] (c :: cs)
            = scanFields fields [c] cs from by simp [scanFields, hc]]

theorem splitOn_pipe_ne_nil (l : Txt) : l.splitOn '|' ≠ [] := by
  unfold List.splitOn
  exact List.splitOnP_ne_nil _ l

theorem recOf_scanFields :
    ∀ (l : Txt) (fields : List Txt) (field : Txt),
      recOf (scanFields fields field l).1 (scanFields fields field l).2
        = fields.reverse ++ (l.splitOn '|').modifyHead (fun x => field.reverse ++ x) := by
  intro l
  induction l with
  | nil =>
    intro fields field
    simp [scanFields, recOf]
  | cons c cs ih =>
    intro fields field
    by_cases hc : c = '|'
    · subst hc
      rw [show scanFields fields field ('|' :: cs)
          = scanFields (field.reverse :: fields) [] cs from by simp [scanFields],
        ih,
        show ('|' :: cs).splitOn '|' = [] :: cs.splitOn '|' from by
          simp [List.splitOn, List.splitOnP_cons]]
      cases hcs : cs.splitOn '|' with
      | nil => exact absurd hcs (splitOn_pipe_ne_nil cs)
      | cons a t =>
        simp [List.modifyHead_cons, List.reverse_cons, List.append_assoc]
    · rw [show scanFields fields field (c :: cs)
          = scanFields fields (c :: field) cs from by simp [scanFields, hc],
        ih,
        show (c :: cs).splitOn '|' = (cs.splitOn '|').modifyHead (List.cons c) from by
          simp [List.splitOn, List.splitOnP_cons, hc]]
      cases hcs : cs.splitOn '|' with
      | nil => exact absurd hcs (splitOn_pipe_ne_nil cs)
      | cons a t =>
        simp [List.modifyHead_cons, List.reverse_cons, List.append_assoc]

theorem csvParse_intercalate :
    ∀ lines : List Txt, lines ≠ [] →
      (∀ l ∈ lines, l ≠ [] ∧ '\x22' ∉ l ∧ '\n' ∉ l) →
      ∀ recs : List (List Txt),
        csvFinish (List.foldl csvStep ⟨.startRecord, [], [], recs⟩
            (['\n'].intercalate lines))
          = recs.reverse ++ lines.map (fun l => l.splitOn '|') := by
  intro lines
  induction lines with
  | nil => intro h; exact absurd rfl h
  | cons l tl ih =>
    intro _ hl recs
    obtain ⟨hne, hq, hn⟩ := hl l (List.mem_cons_self l tl)
    obtain ⟨c, cs, rfl⟩ : ∃ c cs, l = c :: cs := by
      cases l with
      | nil => exact absurd rfl hne
      | cons c cs => exact ⟨c, cs, rfl⟩
    have hqc : ¬c = '\x22' := fun h => hq (h ▸ List.mem_cons_self c cs)
    have hnc : ¬c = '\n' := fun h => hn (h ▸ List.mem_cons_self c cs)
    have hrec : recOf (scanFields [] [] (c :: cs)).1 (scanFields [] [] (c :: cs)).2
        = (c :: cs).splitOn '|' := by
      rw [recOf_scanFields]
      cases hcs : (c :: cs).splitOn '|' with
      | nil => exact absurd hcs (splitOn_pipe_ne_nil _)
      | cons a t => simp [List.modifyHead_cons]
    cases tl with
    | nil =>
      rw [show ['\n'].intercalate [c :: cs] = c :: cs from by simp [List.intercalate],
        List.foldl_cons, csvStep_startRecord_eq hqc hnc recs, ← List.foldl_cons,
        (csv_fold_line_finish (c :: cs) hq hn [] [] recs).1, hrec]
      simp [List.reverse_cons]
    | cons l2 tl2 =>
      rw [intercalate_nl_cons, List.cons_append, List.foldl_cons,
        csvStep_startRecord_eq hqc hnc recs, ← List.foldl_cons, ← List.cons_append,
        ((csv_fold_line_nl (['\n'].intercalate (l2 :: tl2))) (c :: cs) hq hn [] [] recs).1,
        hrec,
        ih (by simp) (fun x hx => hl x (List.mem_cons_of_mem _ hx))
          (((c :: cs).splitOn '|') :: recs)]
      simp [List.reverse_cons, List.append_assoc]

theorem csvRecords_of_lines {lines : List Txt} (hne : lines ≠ [])
    (hprops : ∀ l ∈ lines, l ≠ [] ∧ '\x22' ∉ l ∧ '\n' ∉ l) :
    csvParse (['\n'].intercalate lines) = lines.map (fun l => l.splitOn '|') := by
  unfold csvParse
  have h := csvParse_intercalate lines hne hprops []
  simpa using h

theorem keepRecord_of_two_le {r : List Txt} (h : 2 ≤ r.length) :
    keepRecord r = true := by
  cases r with
  | nil => simp at h
  | cons a t =>
    cases t with
    | nil => simp at h
    | cons b t2 => rfl

theorem readCsvPipe_of_records {s : Txt} {header d0 : List Txt} {drest : List (List Txt)}
    (h : (csvParse s).filter keepRecord = header :: d0 :: drest) :
    readCsvPipe s =
      ⟨header, (d0 :: drest).filter fun r => r.length ≤ max header.length d0.length⟩ := by
  unfold readCsvPipe
  rw [h]

/-- C7 counterexample: in the table whose single extra-field row is the
first data row, pandas' implicit-index inference widens the expected field
count to five, so the malformed row is kept and nothing is dropped: the
result has both rows, not total-minus-malformed. -/
theorem c7_counterexample :
    (extractTable malformedFirstText).rows
        = [["a".toList, "b".toList, "c".toList, "d".toList, "e".toList],
            ["f".toList, "g".toList, "h".toList, "i".toList]] ∧
      (extractTable malformedFirstText).rows.length ≠
        ["a|b|c|d|e".toList, "f|g|h|i".toList].length - 1 := by
  decide

/-- C7 (amended): in a table text whose lines carry no quote character and
no carriage return (so csv field splitting is splitting on the delimiter)
and whose first data row has exactly the header's field count, a single
later row with one extra field is dropped individually and every other row
is kept, so the result length is the total number of data rows minus one;
no malformed row aborts the parse.  (When the extra-field row is the first
data row, read_csv instead treats the extra column as an implicit index and
drops nothing — see the counterexample.) -/
theorem c7_malformed_row_skip
    (hrest p0 : Txt) (pre post : List Txt) (bad : Txt)
    (hnl : ∀ l ∈ (headerMarker ++ hrest) :: (p0 :: pre ++ bad :: post), '\n' ∉ l)
    (hbt : ∀ l ∈ (headerMarker ++ hrest) :: (p0 :: pre ++ bad :: post), '\x60' ∉ l)
    (hqt : ∀ l ∈ (headerMarker ++ hrest) :: (p0 :: pre ++ bad :: post), '\x22' ∉ l)
    (_hcr : ∀ l ∈ (headerMarker ++ hrest) :: (p0 :: pre ++ bad :: post), '\x0d' ∉ l)
    (hgood : ∀ l ∈ p0 :: (pre ++ post),
      (l.splitOn '|').length = ((headerMarker ++ hrest).splitOn '|').length)
    (hbad : (bad.splitOn '|').length
      = ((headerMarker ++ hrest).splitOn '|').length + 1)
    (hstrip : pyStrip (['\n'].intercalate
        ((headerMarker ++ hrest) :: (p0 :: pre ++ bad :: post)))
      = ['\n'].intercalate ((headerMarker ++ hrest) :: (p0 :: pre ++ bad :: post))) :
    (extractTable (['\n'].intercalate
        ((headerMarker ++ hrest) :: (p0 :: pre ++ bad :: post)))).rows
        = ((p0 :: pre) ++ post).map (fun l => l.splitOn '|') ∧
      (extractTable (['\n'].intercalate
        ((headerMarker ++ hrest) :: (p0 :: pre ++ bad :: post)))).rows.length
        = (p0 :: pre ++ bad :: post).length - 1 := by
  have hmk : headerMarker = '감' :: "성|분류".toList := rfl
  have htext : ['\n'].intercalate ((headerMarker ++ hrest) :: (p0 :: pre ++ bad :: post))
      = (headerMarker ++ hrest) ++ '\n' :: ['\n'].intercalate (p0 :: pre ++ bad :: post) :=
    intercalate_nl_cons _ _ _
  have hsw : startsWith headerMarker
      (['\n'].intercalate ((headerMarker ++ hrest) :: (p0 :: pre ++ bad :: post))) = true := by
    rw [htext, List.append_assoc]
    exact startsWith_append_self headerMarker _
  have hfind : findSub headerMarker
      (['\n'].intercalate ((headerMarker ++ hrest) :: (p0 :: pre ++ bad :: post)))
      = some 0 := by
    rw [hmk] at hsw ⊢
    exact findSub_of_startsWith hsw
  have hbtT : '\x60' ∉
      ['\n'].intercalate ((headerMarker ++ hrest) :: (p0 :: pre ++ bad :: post)) := by
    intro hm
    rcases mem_intercalate_nl _ hm with h1 | ⟨l, hl, hcl⟩
    · exact absurd h1 (by decide)
    · exact hbt l hl hcl
  have hr1 : removeAll fenceCsvTok
      (['\n'].intercalate ((headerMarker ++ hrest) :: (p0 :: pre ++ bad :: post)))
      = ['\n'].intercalate ((headerMarker ++ hrest) :: (p0 :: pre ++ bad :: post)) := by
    rw [show fenceCsvTok = '\x60' :: "``csv".toList from rfl, removeAll_of_notMem hbtT]
  have hr2 : removeAll fenceTok
      (['\n'].intercalate ((headerMarker ++ hrest) :: (p0 :: pre ++ bad :: post)))
      = ['\n'].intercalate ((headerMarker ++ hrest) :: (p0 :: pre ++ bad :: post)) := by
    rw [show fenceTok = '\x60' :: "``".toList from rfl, removeAll_of_notMem hbtT]
  have hN : 2 ≤ ((headerMarker ++ hrest).splitOn '|').length := by
    refine splitOn_length_of_mem (List.mem_append_left hrest ?_)
    decide
  have hcount : ∀ l ∈ p0 :: pre ++ bad :: post, 2 ≤ (l.splitOn '|').length := by
    intro l hl
    rcases List.mem_cons.mp hl with h3 | h4
    · rw [hgood l (by simp [h3])]
      exact hN
    · rcases List.mem_append.mp h4 with h5 | h6
      · rw [hgood l (by simp [h5])]
        exact hN
      · rcases List.mem_cons.mp h6 with h7 | h8
        · rw [h7, hbad]
          omega
        · rw [hgood l (by simp [h8])]
          exact hN
  have hlineprops : ∀ l ∈ (headerMarker ++ hrest) :: (p0 :: pre ++ bad :: post),
      l ≠ [] ∧ '\x22' ∉ l ∧ '\n' ∉ l := by
    intro l hl
    refine ⟨?_, hqt l hl, hnl l hl⟩
    rcases List.mem_cons.mp hl with h1 | h2
    · rw [h1, hmk]
      simp
    · intro hnil
      have hc2 := hcount l h2
      rw [hnil] at hc2
      simp at hc2
  have hrecords : csvParse
      (['\n'].intercalate ((headerMarker ++ hrest) :: (p0 :: pre ++ bad :: post)))
      = ((headerMarker ++ hrest).splitOn '|') :: ((p0.splitOn '|')
          :: ((pre ++ bad :: post).map fun l => l.splitOn '|')) := by
    rw [csvRecords_of_lines (by simp) hlineprops]
    simp
  have hfilterK : (csvParse
      (['\n'].intercalate ((headerMarker ++ hrest) :: (p0 :: pre ++ bad :: post)))).filter
        keepRecord
      = ((headerMarker ++ hrest).splitOn '|') :: ((p0.splitOn '|')
          :: ((pre ++ bad :: post).map fun l => l.splitOn '|')) := by
    rw [hrecords, List.filter_eq_self.mpr]
    intro r hr
    rcases List.mem_cons.mp hr with h1 | h2
    · rw [h1]
      exact keepRecord_of_two_le hN
    · rcases List.mem_cons.mp h2 with h3 | h4
      · rw [h3]
        exact keepRecord_of_two_le (hcount p0 (List.mem_cons_self _ _))
      · rcases List.mem_map.mp h4 with ⟨l, hl, rfl⟩
        exact keepRecord_of_two_le (hcount l (List.mem_cons_of_mem _ hl))
  have hrcp := readCsvPipe_of_records hfilterK
  have hmax : max ((headerMarker ++ hrest).splitOn '|').length
      ((p0.splitOn '|').length) = ((headerMarker ++ hrest).splitOn '|').length := by
    rw [hgood p0 (List.mem_cons_self _ _), Nat.max_self]
  have hrows : (readCsvPipe
      (['\n'].intercalate ((headerMarker ++ hrest) :: (p0 :: pre ++ bad :: post)))).rows
      = ((p0 :: pre) ++ post).map (fun l => l.splitOn '|') := by
    rw [hrcp]
    simp only [hmax]
    rw [List.filter_cons_of_pos (by
        simp only [hgood p0 (List.mem_cons_self _ _)]
        simp),
      List.map_append, List.map_cons, List.filter_append,
      List.filter_cons_of_neg (by
        simp only [hbad]
        simp),
      List.filter_eq_self.mpr (by
        intro r hr
        rcases List.mem_map.mp hr with ⟨l, hl, rfl⟩
        simp only [hgood l (by simp [hl])]
        simp),
      List.filter_eq_self.mpr (by
        intro r hr
        rcases List.mem_map.mp hr with ⟨l, hl, rfl⟩
        simp only [hgood l (by simp [hl])]
        simp)]
    simp
  constructor
  · rw [extractTable_some hfind]
    rw [List.drop_zero, hr1, hr2, hstrip]
    exact hrows
  · rw [extractTable_some hfind]
    rw [List.drop_zero, hr1, hr2, hstrip]
    rw [hrows]
    simp only [List.length_map, List.length_append, List.length_cons]
    omega

/-- Witness for c7_malformed_row_skip: header plus three data rows, the
second carrying the extra field; exactly that row is dropped. -/
theorem c7_malformed_row_skip_witness :
    (extractTable (['\n'].intercalate
        ((headerMarker ++ "|키워드|내용".toList)
          :: ("a|b|c|d".toList :: [] ++ "e|f|g|h|i".toList :: ["j|k|l|m".toList])))).rows
        = (("a|b|c|d".toList :: ([] : List Txt)) ++ ["j|k|l|m".toList]).map
            (fun l => l.splitOn '|') ∧
      (extractTable (['\n'].intercalate
        ((headerMarker ++ "|키워드|내용".toList)
          :: ("a|b|c|d".toList :: [] ++ "e|f|g|h|i".toList :: ["j|k|l|m".toList])))).rows.length
        = ("a|b|c|d".toList :: [] ++ "e|f|g|h|i".toList :: ["j|k|l|m".toList]).length - 1 :=
  c7_malformed_row_skip "|키워드|내용".toList "a|b|c|d".toList [] ["j|k|l|m".toList]
    "e|f|g|h|i".toList (by decide) (by decide) (by decide) (by decide) (by decide)
    (by decide) (by decide)

end App
